import Mathlib

/-!
Shallow embedding of the counting core of the tc word count utility
(src/count.rs, src/lib.rs, src/config.rs), together with proofs about the
scanning algorithms.

Byte streams are modelled as lists of naturals below 256.  A buffered
reader is modelled by the sequence of outcomes of its successive
`fill_buf` calls: each call either returns a slice of bytes (empty
meaning end of stream) or fails with an I/O error carrying an error
code.  The scanners consume these fills exactly as the Rust loops do and
the whole stream is consumed at every step, mirroring
`reader.consume(len)` on the full filled slice.
-/

namespace Tc

/-- Outcome of one `fill_buf` call on the buffered reader: a chunk of
bytes (an empty chunk is a clean end of stream) or a low level read
failure carrying an error code. -/
inductive Fill where
  | chunk (bs : List Nat) : Fill
  | ioErr (e : Nat) : Fill
deriving DecidableEq, Repr

/-- Rust `u8::is_ascii_whitespace` and `char::is_ascii_whitespace`:
space, horizontal tab, line feed, form feed and carriage return. -/
def is_ascii_whitespace (b : Nat) : Bool :=
  b == 0x20 || b == 0x09 || b == 0x0A || b == 0x0C || b == 0x0D

/-- One iteration of the per byte loop of `count::binary`
(count.rs lines 24 to 32) acting on the state (words, lines, in_word). -/
def binaryByte : Nat × Nat × Bool → Nat → Nat × Nat × Bool :=
  fun st b =>
    let words := st.1
    let lines := st.2.1 + (if b == 10 then 1 else 0)
    let in_word := st.2.2
    if is_ascii_whitespace b then
      (words + (if in_word then 1 else 0), lines, false)
    else
      (words, lines, true)

/-- Return step of `count::binary` (count.rs lines 35 to 38): a still
open word is counted once at end of stream. -/
def binaryFinish (bytes : Nat) (st : Nat × Nat × Bool) : Nat × Nat × Nat :=
  (bytes, if st.2.2 then st.1 + 1 else st.1, st.2.1)

/-- The fill and consume loop of `count::binary` (count.rs lines 14 to
34).  A read error returns (0, 0, 0) exactly as the `Err(_)` arm does;
an empty fill breaks the loop. -/
def binaryGo : List Fill → Nat → Nat × Nat × Bool → Nat × Nat × Nat
  | [], bytes, st => binaryFinish bytes st
  | Fill.ioErr _ :: _, _, _ => (0, 0, 0)
  | Fill.chunk [] :: _, bytes, st => binaryFinish bytes st
  | Fill.chunk (b :: bs) :: rest, bytes, st =>
      binaryGo rest (bytes + (b :: bs).length) (List.foldl binaryByte st (b :: bs))

/-- `count::binary` (count.rs lines 11 to 39): bytes, words and lines of
a raw byte stream. -/
def binary (fills : List Fill) : Nat × Nat × Nat :=
  binaryGo fills 0 (0, 0, false)

/-- The loop of `count::hyperscreamingcount` (count.rs lines 77 to 89);
the `bytecount::count(buffer, 0x0A)` primitive is the number of line
feed bytes of the filled slice. -/
def hyperGo : List Fill → Nat → Nat → Nat × Nat
  | [], bytes, lines => (bytes, lines)
  | Fill.ioErr _ :: _, _, _ => (0, 0)
  | Fill.chunk [] :: _, bytes, lines => (bytes, lines)
  | Fill.chunk (b :: bs) :: rest, bytes, lines =>
      hyperGo rest (bytes + (b :: bs).length)
        (lines + List.countP (fun x => x == 10) (b :: bs))

/-- `count::hyperscreamingcount` (count.rs lines 75 to 91): bytes and
lines of a raw byte stream. -/
def hyperscreamingcount (fills : List Fill) : Nat × Nat :=
  hyperGo fills 0 0

/-- State of the incremental strict UTF-8 decoder that models
`utf8::BufReadDecoder::next_strict`: how many continuation bytes are
still needed, the accumulated code point bits, and the admissible range
of the next continuation byte (the range excludes overlong encodings,
surrogates and values above 0x10FFFF, as Rust `str::from_utf8` does). -/
structure Utf8State where
  need : Nat
  acc : Nat
  lo : Nat
  hi : Nat
deriving DecidableEq, Repr

/-- Decoder state between two scalar values. -/
def utf8Init : Utf8State := ⟨0, 0, 0, 0⟩

/-- Feed one byte to the strict UTF-8 decoder.  `none` means the byte
sequence is conclusively invalid; `some (st, some cp)` emits the scalar
value `cp`.  Lead bytes 0xC0, 0xC1 and 0xF5 to 0xFF are invalid, 0xE0,
0xED, 0xF0 and 0xF4 restrict their first continuation byte so that
overlong forms, surrogates and values above 0x10FFFF are rejected. -/
def utf8Step (st : Utf8State) (b : Nat) : Option (Utf8State × Option Nat) :=
  if st.need == 0 then
    if b < 0x80 then some (utf8Init, some b)
    else if b < 0xC2 then none
    else if b ≤ 0xDF then some (⟨1, b - 0xC0, 0x80, 0xBF⟩, none)
    else if b == 0xE0 then some (⟨2, 0, 0xA0, 0xBF⟩, none)
    else if b == 0xED then some (⟨2, 0xD, 0x80, 0x9F⟩, none)
    else if b ≤ 0xEF then some (⟨2, b - 0xE0, 0x80, 0xBF⟩, none)
    else if b == 0xF0 then some (⟨3, 0, 0x90, 0xBF⟩, none)
    else if b ≤ 0xF3 then some (⟨3, b - 0xF0, 0x80, 0xBF⟩, none)
    else if b == 0xF4 then some (⟨3, 4, 0x80, 0x8F⟩, none)
    else none
  else if st.lo ≤ b && b ≤ st.hi then
    if st.need == 1 then some (utf8Init, some (st.acc * 64 + (b - 0x80)))
    else some (⟨st.need - 1, st.acc * 64 + (b - 0x80), 0x80, 0xBF⟩, none)
  else none

/-- Running totals of `count::utf8` (count.rs line 43): bytes, chars,
words, lines and the in_word flag. -/
structure ScanAcc where
  bytes : Nat
  chars : Nat
  words : Nat
  lines : Nat
  in_word : Bool
deriving DecidableEq, Repr

/-- The per scalar body of `count::utf8` (count.rs lines 51 to 60):
count the char, a line feed, and the word boundary transitions. -/
def utf8CharCount (a : ScanAcc) (cp : Nat) : ScanAcc :=
  let a := { a with
    chars := a.chars + 1,
    lines := a.lines + (if cp == 10 then 1 else 0) }
  if is_ascii_whitespace cp then
    { a with words := a.words + (if a.in_word then 1 else 0), in_word := false }
  else
    { a with in_word := true }

/-- Feed the bytes of one filled slice to the decoder, updating the
totals per decoded scalar value; `bytes` grows by one per consumed byte,
so that on a fully decoded stream it equals the sum of the `str.len()`
values the Rust loop adds.  `none` is a conclusively invalid byte
sequence. -/
def utf8Bytes : List Nat → Utf8State → ScanAcc → Option (Utf8State × ScanAcc)
  | [], st, a => some (st, a)
  | b :: bs, st, a =>
      match utf8Step st b with
      | none => none
      | some (st', none) => utf8Bytes bs st' { a with bytes := a.bytes + 1 }
      | some (st', some cp) =>
          utf8Bytes bs st' (utf8CharCount { a with bytes := a.bytes + 1 } cp)

/-- End of stream step of `count::utf8`: a pending incomplete sequence
is an invalid byte sequence error, which the `Err(_)` arm of count.rs
line 62 turns into (0, 0, 0, 0); otherwise close a trailing open word
(count.rs lines 68 to 70). -/
def utf8Finish (st : Utf8State) (a : ScanAcc) : Nat × Nat × Nat × Nat :=
  if st.need == 0 then
    (a.bytes, a.chars, if a.in_word then a.words + 1 else a.words, a.lines)
  else
    (0, 0, 0, 0)

/-- The decoding loop of `count::utf8` (count.rs lines 46 to 67).  Any
decode or read error returns (0, 0, 0, 0) exactly as the `Err(_)` arm
does. -/
def utf8Go : List Fill → Utf8State → ScanAcc → Nat × Nat × Nat × Nat
  | [], st, a => utf8Finish st a
  | Fill.ioErr _ :: _, _, _ => (0, 0, 0, 0)
  | Fill.chunk [] :: _, st, a => utf8Finish st a
  | Fill.chunk (b :: bs) :: rest, st, a =>
      match utf8Bytes (b :: bs) st a with
      | none => (0, 0, 0, 0)
      | some (st', a') => utf8Go rest st' a'

/-- `count::utf8` (count.rs lines 42 to 72): bytes, chars, words and
lines of a stream decoded strictly as UTF-8. -/
def utf8 (fills : List Fill) : Nat × Nat × Nat × Nat :=
  utf8Go fills utf8Init ⟨0, 0, 0, 0, false⟩

/-- Run the decoder over a byte list, returning the final state and the
emitted scalar values, or `none` on a conclusively invalid sequence. -/
def dfaRun : Utf8State → List Nat → Option (Utf8State × List Nat)
  | st, [] => some (st, [])
  | st, b :: bs =>
      match utf8Step st b with
      | none => none
      | some (st', none) => dfaRun st' bs
      | some (st', some cp) =>
          (dfaRun st' bs).map (fun p => (p.1, cp :: p.2))

/-- Strict UTF-8 decoding of a whole byte list: the scalar values, or
`none` when the list is invalid or ends inside a multi byte sequence. -/
def decodeUtf8 (s : List Nat) : Option (List Nat) :=
  match dfaRun utf8Init s with
  | none => none
  | some (st, cps) => if st.need == 0 then some cps else none

/-- `count::Error` (count.rs lines 138 to 142): `NotUtf8EncodedFile` is
the spec error InvalidEncoding, `ioFailure` is the `Io(io::Error)`
variant wrapping the low level error (here an error code). -/
inductive Error where
  | NotUtf8EncodedFile : Error
  | ioFailure (e : Nat) : Error
deriving DecidableEq, Repr

/-- The loop of `binary_file` (count.rs lines 155 to 181).  A read
error is returned as `Err(Error::Io(e))`; when `only_bytes` is set the
per byte loop is skipped.  Note that unlike `count::binary` this
function never counts a trailing open word (count.rs line 182 returns
directly). -/
def binary_fileGo : List Fill → Bool → Nat → Nat × Nat × Bool →
    Except Error (Nat × Nat × Nat × Nat)
  | [], _, bytes, st => Except.ok (bytes, 0, st.1, st.2.1)
  | Fill.ioErr e :: _, _, _, _ => Except.error (Error.ioFailure e)
  | Fill.chunk [] :: _, _, bytes, st => Except.ok (bytes, 0, st.1, st.2.1)
  | Fill.chunk (b :: bs) :: rest, only_bytes, bytes, st =>
      binary_fileGo rest only_bytes (bytes + (b :: bs).length)
        (if only_bytes then st else List.foldl binaryByte st (b :: bs))

/-- `binary_file` (count.rs lines 144 to 183): (bytes, 0, words, lines)
of an opened file, or a typed error. -/
def binary_file (fills : List Fill) (only_bytes : Bool) :
    Except Error (Nat × Nat × Nat × Nat) :=
  binary_fileGo fills only_bytes 0 (0, 0, false)

/-- End of stream step of `utf8_file`: a pending incomplete sequence is
an `InvalidByteSequence` error mapped to `NotUtf8EncodedFile`
(count.rs lines 214 to 221); like `binary_file`, no trailing open word
is counted (count.rs line 227 returns directly). -/
def utf8FileFinish (st : Utf8State) (a : ScanAcc) :
    Except Error (Nat × Nat × Nat × Nat) :=
  if st.need == 0 then Except.ok (a.bytes, a.chars, a.words, a.lines)
  else Except.error Error.NotUtf8EncodedFile

/-- The decoding loop of `utf8_file` (count.rs lines 194 to 226). -/
def utf8FileGo : List Fill → Utf8State → ScanAcc →
    Except Error (Nat × Nat × Nat × Nat)
  | [], st, a => utf8FileFinish st a
  | Fill.ioErr e :: _, _, _ => Except.error (Error.ioFailure e)
  | Fill.chunk [] :: _, st, a => utf8FileFinish st a
  | Fill.chunk (b :: bs) :: rest, st, a =>
      match utf8Bytes (b :: bs) st a with
      | none => Except.error Error.NotUtf8EncodedFile
      | some (st', a') => utf8FileGo rest st' a'

/-- `utf8_file` (count.rs lines 185 to 228): (bytes, chars, words,
lines) of an opened file decoded strictly as UTF-8, or a typed error. -/
def utf8_file (fills : List Fill) : Except Error (Nat × Nat × Nat × Nat) :=
  utf8FileGo fills utf8Init ⟨0, 0, 0, 0, false⟩

/-- `Config` (config.rs): the four requested metrics. -/
structure Config where
  bytes : Bool
  chars : Bool
  words : Bool
  lines : Bool
deriving DecidableEq, Repr

/-- `count::Count` (count.rs lines 98 to 105): a source identity paired
with the four optional counts. -/
structure Count (α : Type) where
  context : α
  bytes : Option Nat
  chars : Option Nat
  words : Option Nat
  lines : Option Nat
deriving DecidableEq, Repr

/-- The `Ok(Count { .. })` construction of `count::file` (count.rs
lines 240 to 246): each field is populated iff its Config flag is
set. -/
def countOf {α : Type} (path : α) (config : Config)
    (r : Nat × Nat × Nat × Nat) : Count α :=
  { context := path,
    bytes := if config.bytes then some r.1 else none,
    chars := if config.chars then some r.2.1 else none,
    words := if config.words then some r.2.2.1 else none,
    lines := if config.lines then some r.2.2.2 else none }

/-- `count::file` (count.rs lines 234 to 247).  The filesystem is
modelled by a map `fs` from paths to the fill sequence of the opened
file.  Chars requested selects `utf8_file`; otherwise `binary_file`
runs, in bytes only mode when neither words nor lines are requested. -/
def file {α : Type} (fs : α → List Fill) (path : α) (config : Config) :
    Except Error (Count α) :=
  (if config.chars then utf8_file (fs path)
   else binary_file (fs path) (!config.words && !config.lines)).map
    (countOf path config)

/-- `count::files` (count.rs lines 230 to 232): map `file` over the
paths, collecting one result per path in input order. -/
def files {α : Type} (fs : α → List Fill) (paths : List α) (config : Config) :
    List (Except Error (Count α)) :=
  paths.map (fun path => file fs path config)

/-- `Counted` (lib.rs lines 15 to 21): the four optional counts of the
builder style API. -/
structure Counted where
  bytes : Option Nat
  chars : Option Nat
  words : Option Nat
  lines : Option Nat
deriving DecidableEq, Repr

/-- Result assembly of the chars branch of `count_readable` (lib.rs
lines 137 to 144). -/
def countedOfUtf8 (c : Config) (r : Nat × Nat × Nat × Nat) : Counted :=
  { bytes := if c.bytes then some r.1 else none,
    chars := if c.chars then some r.2.1 else none,
    words := if c.words then some r.2.2.1 else none,
    lines := if c.lines then some r.2.2.2 else none }

/-- Result assembly of the fast line branch of `count_readable` (lib.rs
lines 146 to 153). -/
def countedOfHyper (c : Config) (r : Nat × Nat) : Counted :=
  { bytes := if c.bytes then some r.1 else none,
    chars := none,
    words := none,
    lines := if c.lines then some r.2 else none }

/-- Result assembly of the binary branch of `count_readable` (lib.rs
lines 155 to 162). -/
def countedOfBinary (c : Config) (r : Nat × Nat × Nat) : Counted :=
  { bytes := if c.bytes then some r.1 else none,
    chars := none,
    words := if c.words then some r.2.1 else none,
    lines := if c.lines then some r.2.2 else none }

/-- `count_readable` (lib.rs lines 135 to 164): pick the scanner from
the requested metrics of the counter and assemble the result. -/
def count_readable (c : Config) (fills : List Fill) : Counted :=
  if c.chars then countedOfUtf8 c (utf8 fills)
  else if c.lines && !c.words then countedOfHyper c (hyperscreamingcount fills)
  else countedOfBinary c (binary fills)

/-- `Count<PathBuf>::count` (lib.rs lines 74 to 94): when only bytes are
requested the count is resolved from the filesystem length metadata
`metaLen` without touching the stream; otherwise the opened file is
scanned by `count_readable`. -/
def countPathBuf (metaLen : Nat) (c : Config) (fills : List Fill) : Counted :=
  if c.bytes && !(c.chars || c.words || c.lines) then
    { bytes := some metaLen, chars := none, words := none, lines := none }
  else count_readable c fills

/-- The four scan paths of the strategy selector (spec section 4.5). -/
inductive ScanPath where
  | metadataOnly : ScanPath
  | utf8Scanner : ScanPath
  | fastLine : ScanPath
  | binaryScanner : ScanPath
deriving DecidableEq, Repr

/-- Modelled from the spec: rules 2 to 4 of the strategy selector table
of spec section 4.5 (chars selects the UTF-8 scanner, otherwise lines
without words selects the fast line scanner, otherwise the binary
scanner). -/
def specSelectorTable (c : Config) : ScanPath :=
  if c.chars then ScanPath.utf8Scanner
  else if c.lines && !c.words then ScanPath.fastLine
  else ScanPath.binaryScanner

/-- The dispatch structure of `count_readable` (lib.rs lines 136, 145
and 154): which scanner each flag combination reaches. -/
def count_readable_path (c : Config) : ScanPath :=
  if c.chars then ScanPath.utf8Scanner
  else if c.lines && !c.words then ScanPath.fastLine
  else ScanPath.binaryScanner

/-- The dispatch structure of `count::file` (count.rs lines 235 to
239): chars reaches `utf8_file` and every other combination reaches
`binary_file`; the fast line scanner is never used on this entry
point. -/
def file_path (c : Config) : ScanPath :=
  if c.chars then ScanPath.utf8Scanner
  else ScanPath.binaryScanner

/-- Replace the fast line path by the binary path, the collapse that
`count::file` applies to the spec selector table. -/
def collapseFastLine : ScanPath → ScanPath
  | ScanPath.fastLine => ScanPath.binaryScanner
  | p => p

/-- The successive slices a BufReader of capacity `cap` over an in
memory stream hands to the scanning loop: every fill returns the next
`min cap remaining` bytes and the loop consumes all of them.  The fuel
argument (instantiated with the stream length) only makes the recursion
structural; a positive capacity consumes at least one byte per fill, so
the fuel never runs out. -/
def chunksOfFuel (cap : Nat) : Nat → List Nat → List (List Nat)
  | 0, _ => []
  | _, [] => []
  | fuel + 1, b :: bs =>
      List.take cap (b :: bs) :: chunksOfFuel cap fuel (List.drop cap (b :: bs))

/-- The chunk sequence of a byte stream under buffer capacity `cap`. -/
def chunksOf (cap : Nat) (s : List Nat) : List (List Nat) :=
  chunksOfFuel cap s.length s

/-- The pure fill sequence of an in memory byte stream read through a
buffer of capacity `cap`. -/
def pureFills (cap : Nat) (s : List Nat) : List Fill :=
  (chunksOf cap s).map Fill.chunk

/-- Number of line feed bytes of a stream: the specification of the
line count. -/
def lineCount (s : List Nat) : Nat :=
  List.countP (fun b => b == 10) s

/-- Split a byte stream into its maximal runs of non whitespace bytes,
carrying the reversed current run while inside one. -/
def wordRunsGo : List Nat → Option (List Nat) → List (List Nat)
  | [], none => []
  | [], some run => [run.reverse]
  | b :: bs, none =>
      if is_ascii_whitespace b then wordRunsGo bs none
      else wordRunsGo bs (some [b])
  | b :: bs, some run =>
      if is_ascii_whitespace b then run.reverse :: wordRunsGo bs none
      else wordRunsGo bs (some (b :: run))

/-- The maximal runs of non ASCII-whitespace bytes of a stream, in
order: the claim level notion of the words of a stream. -/
def wordRuns (s : List Nat) : List (List Nat) :=
  wordRunsGo s none

/-- Recursive restatement of the word component of the scanning loops:
count the whitespace boundaries that close an open word, plus a still
open word at end of stream. -/
def countWordsCode : List Nat → Bool → Nat
  | [], in_word => if in_word then 1 else 0
  | b :: bs, in_word =>
      if is_ascii_whitespace b then
        (if in_word then 1 else 0) + countWordsCode bs false
      else countWordsCode bs true

/-- The byte string of the spec scenario hello world 12345 newline
67890 (23 bytes, no trailing newline). -/
def helloBytes : List Nat :=
  [104, 101, 108, 108, 111, 32, 119, 111, 114, 108, 100, 32,
   49, 50, 51, 52, 53, 10, 54, 55, 56, 57, 48]

/-- Specification level result of the UTF-8 scanner on a pure stream:
on valid UTF-8, the byte length, the number of scalar values, the
number of maximal non whitespace runs of scalars and the number of line
feeds; on invalid or truncated UTF-8 the all zero tuple that
`count::utf8` returns. -/
def utf8Spec (s : List Nat) : Nat × Nat × Nat × Nat :=
  match decodeUtf8 s with
  | some cps => (s.length, cps.length, (wordRuns cps).length, lineCount cps)
  | none => (0, 0, 0, 0)

end Tc

namespace Tc

/-! ### Chunking lemmas -/

theorem chunksOfFuel_join (cap : Nat) (hcap : cap ≠ 0) :
    ∀ (fuel : Nat) (s : List Nat), s.length ≤ fuel →
      (chunksOfFuel cap fuel s).flatten = s := by
  intro fuel
  induction fuel with
  | zero =>
      intro s hs
      have hnil : s = [] := List.eq_nil_of_length_eq_zero (Nat.le_zero.mp hs)
      subst hnil
      simp [chunksOfFuel]
  | succ n ih =>
      intro s hs
      cases s with
      | nil => simp [chunksOfFuel]
      | cons b bs =>
          simp only [chunksOfFuel, List.flatten_cons]
          rw [ih (List.drop cap (b :: bs)) (by simp [List.length_drop] at hs ⊢; omega)]
          exact List.take_append_drop cap (b :: bs)

theorem chunksOfFuel_ne_nil (cap : Nat) (hcap : cap ≠ 0) :
    ∀ (fuel : Nat) (s : List Nat), ∀ c ∈ chunksOfFuel cap fuel s, c ≠ [] := by
  intro fuel
  induction fuel with
  | zero => intro s c hc; simp [chunksOfFuel] at hc
  | succ n ih =>
      intro s c hc
      cases s with
      | nil => simp [chunksOfFuel] at hc
      | cons b bs =>
          simp only [chunksOfFuel, List.mem_cons] at hc
          rcases hc with h | h
          · subst h
            obtain ⟨m, rfl⟩ := Nat.exists_eq_succ_of_ne_zero hcap
            simp
          · exact ih _ _ h

theorem chunksOf_join (cap : Nat) (hcap : 1 ≤ cap) (s : List Nat) :
    (chunksOf cap s).flatten = s :=
  chunksOfFuel_join cap (by omega) s.length s (Nat.le_refl _)

theorem chunksOf_ne_nil (cap : Nat) (hcap : 1 ≤ cap) (s : List Nat) :
    ∀ c ∈ chunksOf cap s, c ≠ [] :=
  chunksOfFuel_ne_nil cap (by omega) s.length s

/-! ### Binary scanner lemmas -/

theorem binaryGo_chunks :
    ∀ (cs : List (List Nat)), (∀ c ∈ cs, c ≠ []) →
    ∀ (bytes : Nat) (st : Nat × Nat × Bool),
      binaryGo (cs.map Fill.chunk) bytes st
        = binaryFinish (bytes + cs.flatten.length) (List.foldl binaryByte st cs.flatten) := by
  intro cs
  induction cs with
  | nil => intro _ bytes st; simp [binaryGo]
  | cons c cs ih =>
      intro h bytes st
      cases c with
      | nil => exact absurd rfl (h [] (List.mem_cons_self _ _))
      | cons b bs =>
          simp only [List.map_cons, binaryGo, List.flatten_cons]
          rw [ih (fun c hc => h c (List.mem_cons_of_mem _ hc))]
          simp only [List.length_append, List.foldl_append, Nat.add_assoc]

theorem foldl_binaryByte_words :
    ∀ (s : List Nat) (w l : Nat) (inw : Bool),
      (if (List.foldl binaryByte (w, l, inw) s).2.2
        then (List.foldl binaryByte (w, l, inw) s).1 + 1
        else (List.foldl binaryByte (w, l, inw) s).1)
        = w + countWordsCode s inw := by
  intro s
  induction s with
  | nil => intro w l inw; cases inw <;> simp [countWordsCode]
  | cons b bs ih =>
      intro w l inw
      cases hws : is_ascii_whitespace b
      · simp only [List.foldl_cons, binaryByte, hws, Bool.false_eq_true, if_false,
          countWordsCode]
        rw [ih]
      · simp only [List.foldl_cons, binaryByte, hws, if_true, countWordsCode]
        rw [ih]
        cases inw <;> simp [Nat.add_assoc]

theorem foldl_binaryByte_lines :
    ∀ (s : List Nat) (w l : Nat) (inw : Bool),
      (List.foldl binaryByte (w, l, inw) s).2.1 = l + lineCount s := by
  intro s
  induction s with
  | nil => intro w l inw; simp [lineCount]
  | cons b bs ih =>
      intro w l inw
      cases hws : is_ascii_whitespace b <;>
        simp only [List.foldl_cons, binaryByte, hws, Bool.false_eq_true, if_false,
          if_true] <;>
        rw [ih] <;>
        simp [lineCount, List.countP_cons] <;>
        omega

theorem countWordsCode_runs :
    ∀ (s : List Nat),
      countWordsCode s false = (wordRunsGo s none).length
      ∧ ∀ run : List Nat, countWordsCode s true = (wordRunsGo s (some run)).length := by
  intro s
  induction s with
  | nil => exact ⟨by simp [countWordsCode, wordRunsGo], fun run => by
      simp [countWordsCode, wordRunsGo]⟩
  | cons b bs ih =>
      obtain ⟨ih0, ih1⟩ := ih
      cases hws : is_ascii_whitespace b
      · constructor
        · simp only [countWordsCode, hws, Bool.false_eq_true, if_false, wordRunsGo]
          exact ih1 [b]
        · intro run
          simp only [countWordsCode, hws, Bool.false_eq_true, if_false, wordRunsGo]
          exact ih1 (b :: run)
      · constructor
        · simp only [countWordsCode, hws, if_true, wordRunsGo, Bool.false_eq_true,
            if_false, Nat.zero_add]
          exact ih0
        · intro run
          simp only [countWordsCode, hws, if_true, wordRunsGo, List.length_cons]
          rw [ih0]
          omega

theorem binary_pure (cap : Nat) (s : List Nat) (hcap : 1 ≤ cap) :
    binary (pureFills cap s) = (s.length, (wordRuns s).length, lineCount s) := by
  unfold binary pureFills
  rw [binaryGo_chunks (chunksOf cap s) (chunksOf_ne_nil cap hcap s) 0 (0, 0, false)]
  rw [chunksOf_join cap hcap s]
  unfold binaryFinish wordRuns
  simp only [Prod.mk.injEq]
  refine ⟨by omega, ?_, ?_⟩
  · rw [foldl_binaryByte_words s 0 0 false, (countWordsCode_runs s).1]
    omega
  · rw [foldl_binaryByte_lines s 0 0 false]
    omega

/-! ### Fast line scanner lemmas -/

theorem hyperGo_chunks :
    ∀ (cs : List (List Nat)), (∀ c ∈ cs, c ≠ []) →
    ∀ (bytes lines : Nat),
      hyperGo (cs.map Fill.chunk) bytes lines
        = (bytes + cs.flatten.length, lines + lineCount cs.flatten) := by
  intro cs
  induction cs with
  | nil => intro _ bytes lines; simp [hyperGo, lineCount]
  | cons c cs ih =>
      intro h bytes lines
      cases c with
      | nil => exact absurd rfl (h [] (List.mem_cons_self _ _))
      | cons b bs =>
          simp only [List.map_cons, hyperGo, List.flatten_cons]
          rw [ih (fun c hc => h c (List.mem_cons_of_mem _ hc))]
          simp only [lineCount, List.length_append, List.countP_append, Nat.add_assoc]

theorem hyper_pure (cap : Nat) (s : List Nat) (hcap : 1 ≤ cap) :
    hyperscreamingcount (pureFills cap s) = (s.length, lineCount s) := by
  unfold hyperscreamingcount pureFills
  rw [hyperGo_chunks (chunksOf cap s) (chunksOf_ne_nil cap hcap s) 0 0]
  rw [chunksOf_join cap hcap s]
  simp

/-! ### UTF-8 scanner lemmas -/

theorem utf8CharCount_bytes (a : ScanAcc) (cp : Nat) :
    (utf8CharCount a cp).bytes = a.bytes := by
  cases h : is_ascii_whitespace cp <;> simp [utf8CharCount, h]

theorem utf8CharCount_chars (a : ScanAcc) (cp : Nat) :
    (utf8CharCount a cp).chars = a.chars + 1 := by
  cases h : is_ascii_whitespace cp <;> simp [utf8CharCount, h]

theorem utf8CharCount_wl (a : ScanAcc) (cp : Nat) :
    ((utf8CharCount a cp).words, (utf8CharCount a cp).lines, (utf8CharCount a cp).in_word)
      = binaryByte (a.words, a.lines, a.in_word) cp := by
  cases h : is_ascii_whitespace cp <;> simp [utf8CharCount, binaryByte, h]

theorem utf8CharCount_set_bytes (a : ScanAcc) (cp n : Nat) :
    { utf8CharCount a cp with bytes := n } = utf8CharCount { a with bytes := n } cp := by
  cases h : is_ascii_whitespace cp <;> simp [utf8CharCount, h]

theorem utf8Bytes_append :
    ∀ (xs ys : List Nat) (st : Utf8State) (a : ScanAcc),
      utf8Bytes (xs ++ ys) st a
        = (utf8Bytes xs st a).bind (fun p => utf8Bytes ys p.1 p.2) := by
  intro xs
  induction xs with
  | nil => intro ys st a; simp [utf8Bytes]
  | cons b bs ih =>
      intro ys st a
      simp only [List.cons_append, utf8Bytes]
      cases hs : utf8Step st b with
      | none => simp
      | some p =>
          obtain ⟨st', cpq⟩ := p
          cases cpq <;> simp [ih]

theorem utf8Go_chunks :
    ∀ (cs : List (List Nat)), (∀ c ∈ cs, c ≠ []) →
    ∀ (st : Utf8State) (a : ScanAcc),
      utf8Go (cs.map Fill.chunk) st a
        = (match utf8Bytes cs.flatten st a with
           | none => (0, 0, 0, 0)
           | some (st', a') => utf8Finish st' a') := by
  intro cs
  induction cs with
  | nil => intro _ st a; simp [utf8Go, utf8Bytes]
  | cons c cs ih =>
      intro h st a
      cases c with
      | nil => exact absurd rfl (h [] (List.mem_cons_self _ _))
      | cons b bs =>
          simp only [List.map_cons, utf8Go, List.flatten_cons, utf8Bytes_append]
          cases hub : utf8Bytes (b :: bs) st a with
          | none => simp
          | some p =>
              obtain ⟨st', a'⟩ := p
              simp only [Option.bind_some]
              exact ih (fun c hc => h c (List.mem_cons_of_mem _ hc)) st' a'

theorem utf8FileGo_chunks :
    ∀ (cs : List (List Nat)), (∀ c ∈ cs, c ≠ []) →
    ∀ (st : Utf8State) (a : ScanAcc),
      utf8FileGo (cs.map Fill.chunk) st a
        = (match utf8Bytes cs.flatten st a with
           | none => Except.error Error.NotUtf8EncodedFile
           | some (st', a') => utf8FileFinish st' a') := by
  intro cs
  induction cs with
  | nil => intro _ st a; simp [utf8FileGo, utf8Bytes]
  | cons c cs ih =>
      intro h st a
      cases c with
      | nil => exact absurd rfl (h [] (List.mem_cons_self _ _))
      | cons b bs =>
          simp only [List.map_cons, utf8FileGo, List.flatten_cons, utf8Bytes_append]
          cases hub : utf8Bytes (b :: bs) st a with
          | none => simp
          | some p =>
              obtain ⟨st', a'⟩ := p
              simp only [Option.bind_some]
              exact ih (fun c hc => h c (List.mem_cons_of_mem _ hc)) st' a'

theorem utf8Bytes_dfaRun :
    ∀ (s : List Nat) (st : Utf8State) (a : ScanAcc),
      utf8Bytes s st a
        = (dfaRun st s).map
            (fun p => (p.1,
              List.foldl utf8CharCount { a with bytes := a.bytes + s.length } p.2)) := by
  intro s
  induction s with
  | nil => intro st a; simp [utf8Bytes, dfaRun]
  | cons b bs ih =>
      intro st a
      simp only [utf8Bytes, dfaRun, List.length_cons]
      cases hs : utf8Step st b with
      | none => simp
      | some p =>
          obtain ⟨st', cpq⟩ := p
          cases cpq with
          | none =>
              dsimp only
              rw [ih]
              have harith : a.bytes + 1 + bs.length = a.bytes + (bs.length + 1) := by omega
              simp [harith]
          | some cp =>
              dsimp only
              rw [ih]
              have harith : a.bytes + 1 + bs.length = a.bytes + (bs.length + 1) := by omega
              simp only [Option.map_map]
              cases hd : dfaRun st' bs with
              | none => simp
              | some q =>
                  obtain ⟨stf, cps⟩ := q
                  simp only [Option.map_some', Function.comp]
                  rw [utf8CharCount_set_bytes]
                  simp [utf8CharCount_bytes, harith]

theorem foldl_cc_bytes :
    ∀ (cps : List Nat) (a : ScanAcc),
      (List.foldl utf8CharCount a cps).bytes = a.bytes := by
  intro cps
  induction cps with
  | nil => intro a; rfl
  | cons cp cps ih =>
      intro a
      rw [List.foldl_cons, ih, utf8CharCount_bytes]

theorem foldl_cc_chars :
    ∀ (cps : List Nat) (a : ScanAcc),
      (List.foldl utf8CharCount a cps).chars = a.chars + cps.length := by
  intro cps
  induction cps with
  | nil => intro a; simp
  | cons cp cps ih =>
      intro a
      rw [List.foldl_cons, ih, utf8CharCount_chars]
      simp [Nat.add_assoc, Nat.add_comm 1 cps.length]

theorem foldl_cc_wl :
    ∀ (cps : List Nat) (a : ScanAcc),
      ((List.foldl utf8CharCount a cps).words, (List.foldl utf8CharCount a cps).lines,
        (List.foldl utf8CharCount a cps).in_word)
        = List.foldl binaryByte (a.words, a.lines, a.in_word) cps := by
  intro cps
  induction cps with
  | nil => intro a; rfl
  | cons cp cps ih =>
      intro a
      rw [List.foldl_cons, List.foldl_cons, ih, utf8CharCount_wl]

theorem utf8_pure (cap : Nat) (s : List Nat) (hcap : 1 ≤ cap) :
    utf8 (pureFills cap s) = utf8Spec s := by
  unfold utf8 pureFills
  rw [utf8Go_chunks (chunksOf cap s) (chunksOf_ne_nil cap hcap s) utf8Init ⟨0, 0, 0, 0, false⟩]
  rw [chunksOf_join cap hcap s]
  rw [utf8Bytes_dfaRun]
  unfold utf8Spec decodeUtf8
  cases hd : dfaRun utf8Init s with
  | none => simp
  | some p =>
      obtain ⟨stf, cps⟩ := p
      simp only [Option.map_some']
      by_cases hneed : stf.need = 0
      · have hbeq : (stf.need == 0) = true := by simp [hneed]
        simp only [utf8Finish, hbeq, if_true]
        have hb := foldl_cc_bytes cps ⟨0 + s.length, 0, 0, 0, false⟩
        have hc := foldl_cc_chars cps ⟨0 + s.length, 0, 0, 0, false⟩
        have hwl := foldl_cc_wl cps ⟨0 + s.length, 0, 0, 0, false⟩
        have hw := congrArg (fun t => t.1) hwl
        have hl := congrArg (fun t => t.2.1) hwl
        have hiw := congrArg (fun t => t.2.2) hwl
        dsimp only at hb hc hw hl hiw
        rw [Prod.mk.injEq, Prod.mk.injEq, Prod.mk.injEq]
        refine ⟨by rw [hb]; omega, by rw [hc]; omega, ?_, ?_⟩
        · rw [hiw, hw]
          rw [foldl_binaryByte_words cps 0 0 false, (countWordsCode_runs cps).1]
          simp [wordRuns]
        · rw [hl, foldl_binaryByte_lines cps 0 0 false]
          omega
      · have hbeq : (stf.need == 0) = false := by simp [hneed]
        simp [utf8Finish, hbeq]

theorem utf8_file_pure_invalid (cap : Nat) (s : List Nat) (hcap : 1 ≤ cap)
    (hs : decodeUtf8 s = none) :
    utf8_file (pureFills cap s) = Except.error Error.NotUtf8EncodedFile := by
  unfold utf8_file pureFills
  rw [utf8FileGo_chunks (chunksOf cap s) (chunksOf_ne_nil cap hcap s) utf8Init
    ⟨0, 0, 0, 0, false⟩]
  rw [chunksOf_join cap hcap s]
  rw [utf8Bytes_dfaRun]
  unfold decodeUtf8 at hs
  cases hd : dfaRun utf8Init s with
  | none => simp
  | some p =>
      obtain ⟨stf, cps⟩ := p
      rw [hd] at hs
      by_cases hneed : stf.need = 0
      · simp [hneed] at hs
      · have : (stf.need == 0) = false := by simp [hneed]
        simp [utf8FileFinish, this]

/-! ### Behaviour of the scanners on a failing read -/

theorem binaryGo_ioErr :
    ∀ (cs : List (List Nat)), (∀ c ∈ cs, c ≠ []) →
    ∀ (e : Nat) (rest : List Fill) (bytes : Nat) (st : Nat × Nat × Bool),
      binaryGo (cs.map Fill.chunk ++ Fill.ioErr e :: rest) bytes st = (0, 0, 0) := by
  intro cs
  induction cs with
  | nil => intro _ e rest bytes st; rfl
  | cons c cs ih =>
      intro h e rest bytes st
      cases c with
      | nil => exact absurd rfl (h [] (List.mem_cons_self _ _))
      | cons b bs =>
          simp only [List.map_cons, List.cons_append, binaryGo]
          exact ih (fun c hc => h c (List.mem_cons_of_mem _ hc)) e rest _ _

theorem hyperGo_ioErr :
    ∀ (cs : List (List Nat)), (∀ c ∈ cs, c ≠ []) →
    ∀ (e : Nat) (rest : List Fill) (bytes lines : Nat),
      hyperGo (cs.map Fill.chunk ++ Fill.ioErr e :: rest) bytes lines = (0, 0) := by
  intro cs
  induction cs with
  | nil => intro _ e rest bytes lines; rfl
  | cons c cs ih =>
      intro h e rest bytes lines
      cases c with
      | nil => exact absurd rfl (h [] (List.mem_cons_self _ _))
      | cons b bs =>
          simp only [List.map_cons, List.cons_append, hyperGo]
          exact ih (fun c hc => h c (List.mem_cons_of_mem _ hc)) e rest _ _

theorem utf8Go_ioErr :
    ∀ (cs : List (List Nat)), (∀ c ∈ cs, c ≠ []) →
    ∀ (e : Nat) (rest : List Fill) (st : Utf8State) (a : ScanAcc),
      utf8Go (cs.map Fill.chunk ++ Fill.ioErr e :: rest) st a = (0, 0, 0, 0) := by
  intro cs
  induction cs with
  | nil => intro _ e rest st a; rfl
  | cons c cs ih =>
      intro h e rest st a
      cases c with
      | nil => exact absurd rfl (h [] (List.mem_cons_self _ _))
      | cons b bs =>
          simp only [List.map_cons, List.cons_append, utf8Go]
          cases hub : utf8Bytes (b :: bs) st a with
          | none => rfl
          | some p =>
              obtain ⟨st', a'⟩ := p
              exact ih (fun c hc => h c (List.mem_cons_of_mem _ hc)) e rest st' a'

/-! ### File scanner lemmas -/

theorem binary_fileGo_chunks :
    ∀ (cs : List (List Nat)), (∀ c ∈ cs, c ≠ []) →
    ∀ (ob : Bool) (bytes : Nat) (st : Nat × Nat × Bool),
      binary_fileGo (cs.map Fill.chunk) ob bytes st
        = Except.ok (bytes + cs.flatten.length, 0,
            (if ob then st else List.foldl binaryByte st cs.flatten).1,
            (if ob then st else List.foldl binaryByte st cs.flatten).2.1) := by
  intro cs
  induction cs with
  | nil => intro _ ob bytes st; cases ob <;> simp [binary_fileGo]
  | cons c cs ih =>
      intro h ob bytes st
      cases c with
      | nil => exact absurd rfl (h [] (List.mem_cons_self _ _))
      | cons b bs =>
          simp only [List.map_cons, binary_fileGo, List.flatten_cons]
          rw [ih (fun c hc => h c (List.mem_cons_of_mem _ hc))]
          cases ob <;>
            simp only [Bool.false_eq_true, if_false, if_true, List.length_append,
              List.foldl_append, Nat.add_assoc]

theorem binary_file_pure_only_bytes (cap : Nat) (s : List Nat) (hcap : 1 ≤ cap) :
    binary_file (pureFills cap s) true = Except.ok (s.length, 0, 0, 0) := by
  unfold binary_file pureFills
  rw [binary_fileGo_chunks (chunksOf cap s) (chunksOf_ne_nil cap hcap s) true 0 (0, 0, false)]
  rw [chunksOf_join cap hcap s]
  simp

theorem countOf_isSome {α : Type} (p : α) (c : Config) (r : Nat × Nat × Nat × Nat) :
    (countOf p c r).bytes.isSome = c.bytes
    ∧ (countOf p c r).chars.isSome = c.chars
    ∧ (countOf p c r).words.isSome = c.words
    ∧ (countOf p c r).lines.isSome = c.lines := by
  obtain ⟨b, ch, w, l⟩ := c
  cases b <;> cases ch <;> cases w <;> cases l <;> simp [countOf]

/-! ### Claim theorems -/

/-- C1 counterexample: on the spec scenario bytes of hello world 12345
newline 67890, `count::binary` (under the 1 MiB buffer of the source)
returns words = 4, not the words = 3 the claim states: the input has
four maximal non whitespace runs (hello, world, 12345, 67890). -/
theorem binary_scanner_hello_cex :
    binary (pureFills 1048576 helloBytes) = (23, 4, 1)
    ∧ (23, 4, 1) ≠ ((23, 3, 1) : Nat × Nat × Nat) := by
  exact ⟨by decide, by decide⟩

/-- C1 (amended): for every byte stream and every buffer capacity at
least 1, `count::binary` returns bytes equal to the stream length,
words equal to the number of maximal runs of non ASCII-whitespace bytes
(a word still open at end of stream counted exactly once) and lines
equal to the number of 0x0A bytes; in particular the hello world 12345
newline 67890 scenario yields bytes = 23, words = 4, lines = 1. -/
theorem binary_scanner_counts (cap : Nat) (s : List Nat) (hcap : 1 ≤ cap) :
    binary (pureFills cap s) = (s.length, (wordRuns s).length, lineCount s)
    ∧ binary (pureFills cap helloBytes) = (23, 4, 1) := by
  refine ⟨binary_pure cap s hcap, ?_⟩
  rw [binary_pure cap helloBytes hcap]
  decide

/-- C1 witness: the amended claim at capacity 3 on the spec scenario
bytes. -/
theorem binary_scanner_counts_witness :
    binary (pureFills 3 helloBytes)
      = (helloBytes.length, (wordRuns helloBytes).length, lineCount helloBytes)
    ∧ binary (pureFills 3 helloBytes) = (23, 4, 1) :=
  binary_scanner_counts 3 helloBytes (by decide)

/-- C2: the binary scanner gives identical results under any two buffer
capacities at least 1, with bytes always the stream length, and the
UTF-8 scanner gives identical results under any two capacities (on all
streams, hence in particular on valid UTF-8 ones, even when a word or a
multi byte sequence straddles a chunk boundary). -/
theorem scanner_chunk_independent (c1 c2 : Nat) (s : List Nat)
    (h1 : 1 ≤ c1) (h2 : 1 ≤ c2) :
    binary (pureFills c1 s) = binary (pureFills c2 s)
    ∧ (binary (pureFills c1 s)).1 = s.length
    ∧ utf8 (pureFills c1 s) = utf8 (pureFills c2 s) := by
  refine ⟨?_, ?_, ?_⟩
  · rw [binary_pure c1 s h1, binary_pure c2 s h2]
  · rw [binary_pure c1 s h1]
  · rw [utf8_pure c1 s h1, utf8_pure c2 s h2]

/-- C2 witness: capacities 1 and 5 on a stream whose four byte emoji is
split across chunk boundaries under capacity 1. -/
theorem scanner_chunk_independent_witness :
    binary (pureFills 1 [97, 98, 32, 240, 159, 142, 137, 120])
      = binary (pureFills 5 [97, 98, 32, 240, 159, 142, 137, 120])
    ∧ (binary (pureFills 1 [97, 98, 32, 240, 159, 142, 137, 120])).1
      = [97, 98, 32, 240, 159, 142, 137, 120].length
    ∧ utf8 (pureFills 1 [97, 98, 32, 240, 159, 142, 137, 120])
      = utf8 (pureFills 5 [97, 98, 32, 240, 159, 142, 137, 120]) :=
  scanner_chunk_independent 1 5 [97, 98, 32, 240, 159, 142, 137, 120]
    (by decide) (by decide)

/-- C3: a stream that is not fully valid UTF-8 (conclusively invalid or
truncated) makes `utf8_file`, and hence `count::file` with chars
requested, fail with `NotUtf8EncodedFile` (the spec InvalidEncoding)
and no counts; the two byte stream 0xFF 0xFE with chars requested
yields that error, and with only bytes requested yields Ok bytes = 2. -/
theorem utf8_invalid_rejected (cap : Nat) (s : List Nat) (c : Config)
    (hcap : 1 ≤ cap) (hs : decodeUtf8 s = none) (hc : c.chars = true) :
    utf8_file (pureFills cap s) = Except.error Error.NotUtf8EncodedFile
    ∧ file (fun _ : Unit => pureFills cap s) () c
        = Except.error Error.NotUtf8EncodedFile
    ∧ file (fun _ : Unit => pureFills cap [255, 254]) ()
        (Config.mk false true false false)
        = Except.error Error.NotUtf8EncodedFile
    ∧ file (fun _ : Unit => pureFills cap [255, 254]) ()
        (Config.mk true false false false)
        = Except.ok (Count.mk () (some 2) none none none) := by
  have h1 := utf8_file_pure_invalid cap s hcap hs
  have h2 := utf8_file_pure_invalid cap [255, 254] hcap (by decide)
  refine ⟨h1, ?_, ?_, ?_⟩
  · unfold file
    simp only [hc, if_true]
    rw [h1]
    rfl
  · unfold file
    simp only [if_true]
    rw [h2]
    rfl
  · unfold file
    simp only [Bool.false_eq_true, if_false, Bool.not_false, Bool.and_self]
    rw [binary_file_pure_only_bytes cap [255, 254] hcap]
    rfl

/-- C3 witness: capacity 1 on the invalid stream 0xFF 0xFE with a chars
only config. -/
theorem utf8_invalid_rejected_witness :
    utf8_file (pureFills 1 [255, 254]) = Except.error Error.NotUtf8EncodedFile
    ∧ file (fun _ : Unit => pureFills 1 [255, 254]) ()
        (Config.mk false true false false)
        = Except.error Error.NotUtf8EncodedFile
    ∧ file (fun _ : Unit => pureFills 1 [255, 254]) ()
        (Config.mk false true false false)
        = Except.error Error.NotUtf8EncodedFile
    ∧ file (fun _ : Unit => pureFills 1 [255, 254]) ()
        (Config.mk true false false false)
        = Except.ok (Count.mk () (some 2) none none none) :=
  utf8_invalid_rejected 1 [255, 254] (Config.mk false true false false)
    (by decide) (by decide) (by decide)

/-- C4: on every pure byte stream and buffer capacity at least 1, the
fast line scanner returns exactly the bytes and lines of the binary
scanner on the same stream. -/
theorem fastline_matches_binary (cap : Nat) (s : List Nat) (hcap : 1 ≤ cap) :
    (hyperscreamingcount (pureFills cap s)).1 = (binary (pureFills cap s)).1
    ∧ (hyperscreamingcount (pureFills cap s)).2 = (binary (pureFills cap s)).2.2 := by
  rw [hyper_pure cap s hcap, binary_pure cap s hcap]
  exact ⟨rfl, rfl⟩

/-- C4 witness: capacity 2 on the hello scenario bytes. -/
theorem fastline_matches_binary_witness :
    (hyperscreamingcount (pureFills 2 helloBytes)).1
      = (binary (pureFills 2 helloBytes)).1
    ∧ (hyperscreamingcount (pureFills 2 helloBytes)).2
      = (binary (pureFills 2 helloBytes)).2.2 :=
  fastline_matches_binary 2 helloBytes (by decide)

/-- C5: evaluation of the code at a failing read.  The reader based
scanners `count::binary`, `count::hyperscreamingcount` and
`count::utf8` swallow the I/O error and return all zero counts with no
error value (their `Err(_)` arms, marked TODO in the source), contrary
to the claim; the file based `binary_file` and `utf8_file` do fail with
the Io error as the claim states, and a clean end of stream is an Ok,
not an error. -/
theorem reader_error_swallowed :
    binary [Fill.chunk [104, 105], Fill.ioErr 7] = (0, 0, 0)
    ∧ hyperscreamingcount [Fill.chunk [104, 105], Fill.ioErr 7] = (0, 0)
    ∧ utf8 [Fill.chunk [104, 105], Fill.ioErr 7] = (0, 0, 0, 0)
    ∧ binary_file [Fill.chunk [104, 105], Fill.ioErr 7] false
        = Except.error (Error.ioFailure 7)
    ∧ utf8_file [Fill.chunk [104, 105], Fill.ioErr 7]
        = Except.error (Error.ioFailure 7)
    ∧ binary_file [] false = Except.ok (0, 0, 0, 0) :=
  ⟨rfl, rfl, rfl, rfl, rfl, rfl⟩

/-- C6 counterexample: for the lines only configuration the spec
selector table picks the fast line scanner, but `count::file` reaches
the binary file scanner: the fast line path does not exist on the
`count::file` entry point. -/
theorem file_fastline_cex :
    specSelectorTable (Config.mk false false false true) = ScanPath.fastLine
    ∧ file_path (Config.mk false false false true) = ScanPath.binaryScanner
    ∧ ScanPath.fastLine ≠ ScanPath.binaryScanner :=
  ⟨rfl, rfl, by decide⟩

/-- C6 (amended): `count_readable` follows the spec selector table
exactly (chars selects the UTF-8 scanner, otherwise lines without
words the fast line scanner, otherwise the binary scanner) and its
dispatch is total, hence exhaustive and mutually exclusive; the
`count::file` entry point follows the table with the fast line path
collapsed into the binary scanner (chars selects `utf8_file`, every
other combination `binary_file`, in bytes only mode when neither words
nor lines are requested). -/
theorem strategy_dispatch {α : Type} (c : Config) (fills : List Fill)
    (fs : α → List Fill) (p : α) :
    count_readable_path c = specSelectorTable c
    ∧ count_readable c fills =
        (match count_readable_path c with
         | ScanPath.utf8Scanner => countedOfUtf8 c (utf8 fills)
         | ScanPath.fastLine => countedOfHyper c (hyperscreamingcount fills)
         | _ => countedOfBinary c (binary fills))
    ∧ file fs p c =
        Except.map (countOf p c)
          (match file_path c with
           | ScanPath.utf8Scanner => utf8_file (fs p)
           | _ => binary_file (fs p) (!c.words && !c.lines))
    ∧ file_path c = collapseFastLine (specSelectorTable c) := by
  obtain ⟨b, ch, w, l⟩ := c
  cases b <;> cases ch <;> cases w <;> cases l <;> exact ⟨rfl, rfl, rfl, rfl⟩

/-- C7: with only bytes requested on a path source the count is
resolved from the length metadata alone (the result does not depend on
the stream at all), it equals the byte count a full scan of the same
content produces, and every other flag combination goes through the
scanning `count_readable` path. -/
theorem bytes_only_metadata (cap : Nat) (s : List Nat) (m : Nat)
    (fills fills' : List Fill) (c : Config) (hcap : 1 ≤ cap)
    (hc : (c.bytes && !(c.chars || c.words || c.lines)) = false) :
    countPathBuf m (Config.mk true false false false) fills
      = countPathBuf m (Config.mk true false false false) fills'
    ∧ countPathBuf s.length (Config.mk true false false false) fills
      = Counted.mk (some s.length) none none none
    ∧ (binary (pureFills cap s)).1 = s.length
    ∧ countPathBuf m c fills = count_readable c fills := by
  refine ⟨rfl, rfl, ?_, ?_⟩
  · rw [binary_pure cap s hcap]
  · unfold countPathBuf
    simp only [hc, Bool.false_eq_true, if_false]

/-- C7 witness: metadata resolution at the hello scenario, against the
full scan at capacity 4, and the all flags configuration scanning. -/
theorem bytes_only_metadata_witness :
    countPathBuf 99 (Config.mk true false false false) [Fill.ioErr 0]
      = countPathBuf 99 (Config.mk true false false false) []
    ∧ countPathBuf helloBytes.length (Config.mk true false false false) [Fill.ioErr 0]
      = Counted.mk (some helloBytes.length) none none none
    ∧ (binary (pureFills 4 helloBytes)).1 = helloBytes.length
    ∧ countPathBuf 99 (Config.mk true true true true) [Fill.ioErr 0]
      = count_readable (Config.mk true true true true) [Fill.ioErr 0] :=
  bytes_only_metadata 4 helloBytes 99 [Fill.ioErr 0] []
    (Config.mk true true true true) (by decide) (by decide)

/-- C8: `count::files` returns one result per path, in input order,
each computed independently by `count::file` from that path alone, so
one source failing does not affect any other; concretely a failing
first source still leaves the second source counted. -/
theorem files_ordered_per_source {α : Type} (fs : α → List Fill)
    (paths : List α) (config : Config) :
    (files fs paths config).length = paths.length
    ∧ (∀ i : Nat,
        (files fs paths config)[i]? = (paths[i]?).map (fun p => file fs p config))
    ∧ files (fun b : Bool => if b then [Fill.ioErr 3] else pureFills 4 [104])
        [true, false] (Config.mk true true true true)
        = [Except.error (Error.ioFailure 3),
           Except.ok (Count.mk false (some 1) (some 1) (some 0) (some 0))] := by
  refine ⟨?_, ?_, rfl⟩
  · exact List.length_map _ _
  · intro i
    unfold files
    exact List.getElem?_map _ _ _

/-- C9: on every successful scan each field of the result is populated
iff the corresponding Config flag is set: this holds for every
`count_readable` result and for every Ok result of `count::file`; in
particular an unrequested metric is never a zero placeholder and the
non decoding paths never populate chars. -/
theorem some_iff_requested :
    (∀ (c : Config) (fills : List Fill),
      (count_readable c fills).bytes.isSome = c.bytes
      ∧ (count_readable c fills).chars.isSome = c.chars
      ∧ (count_readable c fills).words.isSome = c.words
      ∧ (count_readable c fills).lines.isSome = c.lines)
    ∧ (∀ (α : Type) (fs : α → List Fill) (p : α) (c : Config) (cnt : Count α),
        file fs p c = Except.ok cnt →
        cnt.bytes.isSome = c.bytes ∧ cnt.chars.isSome = c.chars
        ∧ cnt.words.isSome = c.words ∧ cnt.lines.isSome = c.lines) := by
  constructor
  · intro c fills
    obtain ⟨b, ch, w, l⟩ := c
    cases b <;> cases ch <;> cases w <;> cases l <;>
      simp [count_readable, countedOfUtf8, countedOfHyper, countedOfBinary]
  · intro α fs p c cnt h
    unfold file at h
    cases hch : c.chars
    · rw [hch] at h
      simp only [Bool.false_eq_true, if_false] at h
      cases hb : binary_file (fs p) (!c.words && !c.lines) with
      | error e => rw [hb] at h; simp [Except.map] at h
      | ok r =>
          rw [hb] at h
          simp only [Except.map] at h
          cases h
          have hco := countOf_isSome p c r
          rw [hch] at hco
          exact hco
    · rw [hch] at h
      simp only [if_true] at h
      cases hu : utf8_file (fs p) with
      | error e => rw [hu] at h; simp [Except.map] at h
      | ok r =>
          rw [hu] at h
          simp only [Except.map] at h
          cases h
          have hco := countOf_isSome p c r
          rw [hch] at hco
          exact hco

/-- C9 witness: the field presence equations at a concrete scan and a
concrete Ok file result. -/
theorem some_iff_requested_witness :
    (count_readable (Config.mk true false true false) []).bytes.isSome = true
    ∧ (Count.mk 0 (some 0) (some 0) (some 0) (some 0) : Count Nat).chars.isSome
        = true := by
  constructor
  · exact (some_iff_requested.1 (Config.mk true false true false) []).1
  · exact (some_iff_requested.2 Nat (fun _ => []) 0 (Config.mk true true true true)
      (Count.mk 0 (some 0) (some 0) (some 0) (some 0)) rfl).2.1

/-- C10: a read error partway through the stream makes `count::binary`
return (0, 0, 0), `count::hyperscreamingcount` return (0, 0) and
`count::utf8` return (0, 0, 0, 0), and a decode error makes
`count::utf8` return (0, 0, 0, 0): all zero counts with no error value,
discarding whatever was accumulated, which is exactly what these entry
points return on an empty source. -/
theorem scanner_error_zeroes (cap : Nat) (s t : List Nat) (e : Nat)
    (rest : List Fill) (hcap : 1 ≤ cap) (ht : decodeUtf8 t = none) :
    binary (pureFills cap s ++ Fill.ioErr e :: rest) = (0, 0, 0)
    ∧ hyperscreamingcount (pureFills cap s ++ Fill.ioErr e :: rest) = (0, 0)
    ∧ utf8 (pureFills cap s ++ Fill.ioErr e :: rest) = (0, 0, 0, 0)
    ∧ utf8 (pureFills cap t) = (0, 0, 0, 0)
    ∧ binary [] = (0, 0, 0)
    ∧ hyperscreamingcount [] = (0, 0)
    ∧ utf8 [] = (0, 0, 0, 0) := by
  refine ⟨?_, ?_, ?_, ?_, rfl, rfl, rfl⟩
  · exact binaryGo_ioErr (chunksOf cap s) (chunksOf_ne_nil cap hcap s) e rest 0
      (0, 0, false)
  · exact hyperGo_ioErr (chunksOf cap s) (chunksOf_ne_nil cap hcap s) e rest 0 0
  · exact utf8Go_ioErr (chunksOf cap s) (chunksOf_ne_nil cap hcap s) e rest utf8Init
      ⟨0, 0, 0, 0, false⟩
  · rw [utf8_pure cap t hcap]
    simp [utf8Spec, ht]

/-- C10 witness: an error after two bytes of content at capacity 1, and
the invalid single byte 0xFF stream. -/
theorem scanner_error_zeroes_witness :
    binary (pureFills 1 [104, 105] ++ Fill.ioErr 9 :: []) = (0, 0, 0)
    ∧ hyperscreamingcount (pureFills 1 [104, 105] ++ Fill.ioErr 9 :: []) = (0, 0)
    ∧ utf8 (pureFills 1 [104, 105] ++ Fill.ioErr 9 :: []) = (0, 0, 0, 0)
    ∧ utf8 (pureFills 1 [255]) = (0, 0, 0, 0)
    ∧ binary [] = (0, 0, 0)
    ∧ hyperscreamingcount [] = (0, 0)
    ∧ utf8 [] = (0, 0, 0, 0) :=
  scanner_error_zeroes 1 [104, 105] [255] 9 [] (by decide) (by decide)

end Tc
